import Mathlib

/-!
Verification of the constrained Markov model engine (Nhmmonic).

The repository ships the interface `src/models/constrainedmarkov.h`; the
implementation file is not part of the sources, so every operation below is
modelled from the specification document, faithful to its words.  Weights are
modelled as exact rationals (ℚ); transition matrices are association lists,
which gives the fixed, deterministic iteration order the spec demands.
-/

namespace CMM

/-- A word is an opaque token (string), as in the data model. -/
abbrev Word := String

/-- A matrix row: the outgoing (next word, weight) entries of one source word. -/
abbrev Row := List (Word × ℚ)

/-- A per-layer transition matrix: source word to its outgoing row. -/
abbrev TMatrix := List (Word × Row)

/-- Marker representing the start of a sentence
(source: `constrainedmarkov.h`, line 144). -/
def START : Word := "<<START>>"

/-- Marker representing the end of a sentence
(source: `constrainedmarkov.h`, line 146). -/
def END : Word := "<<END>>"

/-- Boolean membership of a word in a list of words. -/
def elemW : Word → List Word → Bool
  | _, [] => false
  | w, x :: xs => if x = w then true else elemW w xs

/-- The source keys of a matrix. -/
def sourceKeys (m : TMatrix) : List Word :=
  m.map Prod.fst

/-- Whether a row is nonempty. -/
def rowNonempty : Row → Bool
  | [] => false
  | _ :: _ => true

/-- Sum of the weights of a row. -/
def rowSum : Row → ℚ
  | [] => 0
  | e :: rest => e.2 + rowSum rest

/-- First row stored under a given source word, if any. -/
def getRow : TMatrix → Word → Option Row
  | [], _ => none
  | s :: rest, w => if s.1 = w then some s.2 else getRow rest w

/-- First weight stored under a given target word in a row, if any. -/
def getVal : Row → Word → Option ℚ
  | [], _ => none
  | e :: rest, w => if e.1 = w then some e.2 else getVal rest w

/-- Weight of the edge `w → w2` in a matrix, an absent entry meaning 0
(the scorer's implicit zero for a missing edge). -/
def lookupWeight (m : TMatrix) (w w2 : Word) : ℚ :=
  match getRow m w with
  | none => 0
  | some row =>
    match getVal row w2 with
    | none => 0
    | some p => p

/-- Modelled from the spec: `increment` over one row — bump the weight of
`nw` by 1, inserting it with weight 1 when absent (§4.1, frequency builder). -/
def incrementRow : Row → Word → Row
  | [], nw => [(nw, 1)]
  | e :: rest, nw => if e.1 = nw then (e.1, e.2 + 1) :: rest else e :: incrementRow rest nw

/-- Modelled from the spec: `increment` of `constrainedmarkov.h` — increment
the weight of the transition `w → nw` in a matrix (§4.1). -/
def increment : TMatrix → Word → Word → TMatrix
  | [], w, nw => [(w, [(nw, 1)])]
  | s :: rest, w, nw =>
    if s.1 = w then (s.1, incrementRow s.2 nw) :: rest else s :: increment rest w nw

/-- Modelled from the spec: record one training sequence's adjacent token
pairs into the layered matrices, pair `(t_i, t_{i+1})` into layer `i` (§4.1). -/
def addSequence : List TMatrix → List Word → List TMatrix
  | m :: ms, t1 :: t2 :: ts => increment m t1 t2 :: addSequence ms (t2 :: ts)
  | ms, _ => ms

/-- Modelled from the spec: the frequency builder — starting from `len` empty
layers, fold every training sequence (with the END sentinel appended, so the
matrix feeding the final layer has END as target) into raw count matrices
(§4.1, §3). -/
def buildFrequencies (len : Nat) (tseqs : List (List Word)) : List TMatrix :=
  tseqs.foldl (fun ms ws => addSequence ms (ws ++ [END])) (List.replicate len [])

/-- Modelled from the spec: `getWordFrequencies` — global occurrence count of a
word across the training sequences, used as the prior for START edges (§4.1). -/
def wordFrequencies (tseqs : List (List Word)) (w : Word) : Nat :=
  (tseqs.map (fun ws => ws.count w)).sum

/-- Modelled from the spec: one layer of the constraint applicator — delete the
edges of the matrix that the per-edge predicate rejects (§4.2). -/
def constrainMat (okE : Word → Word → Bool) (m : TMatrix) : TMatrix :=
  m.map (fun s => (s.1, s.2.filter (fun e => okE s.1 e.1)))

/-- Modelled from the spec: `applyConstraints`, indexed — apply the layer-local
edge predicate `ok` to each layer, layer `j` receiving index `j + i0` (§4.2). -/
def applyConstraintsFrom (ok : Nat → Word → Word → Bool) : Nat → List TMatrix → List TMatrix
  | _, [] => []
  | i, m :: rest => constrainMat (ok i) m :: applyConstraintsFrom ok (i + 1) rest

/-- Modelled from the spec: `applyConstraints` of `constrainedmarkov.h` —
delete every edge the constraint predicate rejects, layer-locally (§4.2). -/
def applyConstraints (ok : Nat → Word → Word → Bool) (ms : List TMatrix) : List TMatrix :=
  applyConstraintsFrom ok 0 ms

/-- One pruning step: keep only edges whose target is an alive source of the
next layer, then drop sources whose row became empty. -/
def pruneMat (alive : List Word) (m : TMatrix) : TMatrix :=
  (m.map (fun s => (s.1, s.2.filter (fun e => elemW e.1 alive)))).filter
    (fun s => rowNonempty s.2)

/-- Modelled from the spec: `removeDeadNodes` of `constrainedmarkov.h` — the
arc-consistency pruner.  Backward propagation from the last layer: a source is
dead when it has no surviving outgoing edge; edges into dead sources of the
next layer are removed, to the fixed point (§4.3). -/
def removeDeadNodes : List TMatrix → List TMatrix
  | [] => []
  | m :: rest =>
    match removeDeadNodes rest with
    | [] => [m.filter (fun s => rowNonempty s.2)]
    | m2 :: rest2 => pruneMat (sourceKeys m2) m :: m2 :: rest2

/-- The START row: one edge to each surviving first-layer word, weighted by the
word's prior global frequency. -/
def startRow (tseqs : List (List Word)) (firstWords : List Word) : Row :=
  firstWords.map (fun w => (w, (wordFrequencies tseqs w : ℚ)))

/-- Modelled from the spec: `addStartTransition` of `constrainedmarkov.h` —
prepend a synthetic layer whose only source is START, pointing to every
surviving word at position 0, weighted by prior frequency (§4.4). -/
def addStartTransition (tseqs : List (List Word)) (ms : List TMatrix) : List TMatrix :=
  [(START, startRow tseqs (sourceKeys (ms.getD 0 [])))] :: ms

/-- Rescale a row to sum to 1 by dividing by its sum. -/
def normalizeRow (row : Row) : Row :=
  row.map (fun e => (e.1, e.2 / rowSum row))

/-- Normalize every row of one matrix. -/
def normMat (m : TMatrix) : TMatrix :=
  m.map (fun s => (s.1, normalizeRow s.2))

/-- Modelled from the spec: `normalize` of `constrainedmarkov.h` — rescale
every remaining row to a proper probability distribution (§4.5; the spec's
design note allows plain row-sum normalization as the baseline). -/
def normalize (ms : List TMatrix) : List TMatrix :=
  ms.map normMat

/-- A trained constrained Markov model: the fixed sentence length and the
finalized layered transition matrices. -/
structure CMModel where
  sentenceLength : Nat
  matrices : List TMatrix
  deriving DecidableEq

/-- Modelled from the spec: `train` of `constrainedmarkov.h` — build raw
frequency matrices, apply the constraint, prune dead nodes, fail when pruning
leaves no option at layer 0 (infeasible constraint), otherwise inject the START
transition and normalize (§2, §6, §7). -/
def train (tseqs : List (List Word)) (constraintLen : Nat)
    (ok : Nat → Word → Word → Bool) : Option CMModel :=
  let raw := buildFrequencies constraintLen tseqs
  let pruned := removeDeadNodes (applyConstraints ok raw)
  if pruned.getD 0 [] = [] then none
  else some ⟨constraintLen, normalize (addStartTransition tseqs pruned)⟩

/-- The pruned matrices `train` builds before START injection, exposed for the
statements about the pruning stage. -/
def trainPruned (tseqs : List (List Word)) (constraintLen : Nat)
    (ok : Nat → Word → Word → Bool) : List TMatrix :=
  removeDeadNodes (applyConstraints ok (buildFrequencies constraintLen tseqs))

/-- The random generator: a stream of draws in `[0,1)` and a position,
modelling the seeded `mt19937` plus `uniform_real_distribution` pair. -/
structure RandGen where
  stream : Nat → ℚ
  pos : Nat

/-- Modelled from the spec: the selection loop of `getNextWord` — walk the
row's entries in their fixed order with a running sum `acc`, selecting the
first entry whose cumulative sum exceeds the draw `r` (§4.6). -/
def getNextWordGo (r : ℚ) : Row → ℚ → Option Word
  | [], _ => none
  | e :: rest, acc => if r < acc + e.2 then some e.1 else getNextWordGo r rest (acc + e.2)

/-- Modelled from the spec: `getNextWord` of `constrainedmarkov.h` — weighted
selection from a row by one uniform draw (§4.6). -/
def getNextWord (row : Row) (r : ℚ) : Option Word :=
  getNextWordGo r row 0

/-- Modelled from the spec: the sampler's walk — state `(layer, word)`,
terminal at exhausted length or at END; looking up an absent or unusable row is
the fatal precondition violation, returned as `none` (§4.6).  The generator
state advances by one draw per selection and is returned alongside. -/
def generateFrom (ms : List TMatrix) : Nat → Nat → Word → RandGen →
    Option (List Word) × RandGen
  | 0, _, _, g => (some [], g)
  | fuel + 1, i, w, g =>
    if w = END then (some [], g)
    else
      match getRow (ms.getD i []) w with
      | none => (none, g)
      | some row =>
        match getNextWord row (g.stream g.pos) with
        | none => (none, ⟨g.stream, g.pos + 1⟩)
        | some w2 =>
          let res := generateFrom ms fuel (i + 1) w2 ⟨g.stream, g.pos + 1⟩
          (res.1.map (fun rest => w2 :: rest), res.2)

/-- Modelled from the spec: `generateSentence` of `constrainedmarkov.h` — walk
from `(0, START)` for `sentenceLength` layers, returning the selected words
(sentinels excluded) and the advanced generator (§4.6). -/
def generateSentence (m : CMModel) (g : RandGen) : Option (List Word) × RandGen :=
  generateFrom m.matrices m.sentenceLength 0 START g

/-- Modelled from the spec: `calculateProbability` of `constrainedmarkov.h` —
product over the layers of the matrix entry of each adjacent token pair, an
absent entry contributing 0 (§4.7). -/
def calculateProbability : List TMatrix → List Word → ℚ
  | m :: ms, t1 :: t2 :: ts => lookupWeight m t1 t2 * calculateProbability ms (t2 :: ts)
  | _, _ => 1

/-- Modelled from the spec: `getSentenceProbability` of `constrainedmarkov.h` —
score the sentence with the implicit START and END sentinels around it (§4.7). -/
def getSentenceProbability (m : CMModel) (sentence : List Word) : ℚ :=
  calculateProbability m.matrices (START :: (sentence ++ [END]))

/-- Modelled from the spec: `getTransitionMatricesSizes` of
`constrainedmarkov.h` — the number of source words of each layer's matrix. -/
def getTransitionMatricesSizes (ms : List TMatrix) : List Nat :=
  ms.map List.length

/-- The spec-side product form of the scorer: the product over the zip of the
matrices with the adjacent token pairs of the per-layer entry (missing = 0). -/
def specProduct (ms : List TMatrix) (tokens : List Word) : ℚ :=
  ((ms.zip (tokens.zip tokens.tail)).map (fun x => lookupWeight x.1 x.2.1 x.2.2)).prod

/-- Whether every adjacent pair of the token list satisfies the layer-local
constraint predicate, layer indices counted from `i`. -/
def pairsOk (ok : Nat → Word → Word → Bool) : Nat → List Word → Bool
  | _, [] => true
  | _, [_] => true
  | i, t1 :: t2 :: ts => ok i t1 t2 && pairsOk ok (i + 1) (t2 :: ts)

/-- A sentence satisfies the trained constraint when every adjacent token pair
of the sentence with END appended passes the per-edge predicate at its layer. -/
def satisfiesConstraint (ok : Nat → Word → Word → Bool) (ws : List Word) : Bool :=
  pairsOk ok 0 (ws ++ [END])

/-- The words that can reach the END sentinel through the remaining layers:
backward from the base `[END]`, a source survives when some edge hits a reacher of
the next layer. -/
def endReachers : List TMatrix → List Word
  | [] => [END]
  | m :: rest =>
    sourceKeys (m.filter (fun s => s.2.any (fun e => elemW e.1 (endReachers rest))))

/-- Whether a word has a path of surviving edges through the given layers that
ends at the END sentinel. -/
def reachesEnd (ms : List TMatrix) (w : Word) : Bool :=
  elemW w (endReachers ms)

/-- All weights of every row of a matrix are strictly positive. -/
def matPos (m : TMatrix) : Prop :=
  ∀ s ∈ m, ∀ e ∈ s.2, 0 < e.2

/-- A small training corpus (the spec's worked example). -/
def exTseqs : List (List Word) :=
  [["the", "cat", "sat"], ["the", "dog", "sat"]]

/-- The trivial (always satisfied) constraint predicate. -/
def exOk : Nat → Word → Word → Bool := fun _ _ _ => true

/-- The model `train` produces on the worked example (training succeeds, as the
`Option.isSome` check decides). -/
def exModel : CMModel :=
  (train exTseqs 3 exOk).get (by decide)

/-- Every target word of every row of a matrix is the END sentinel. -/
def matEndsOnly (m : TMatrix) : Prop :=
  ∀ s ∈ m, ∀ e ∈ s.2, e.1 = END

/-- A hand-written one-word model used to exercise the scorer on a sequence
with a missing transition. -/
def exScoreModel : CMModel :=
  ⟨1, [[(START, [("a", 1)])], [("a", [(END, 1)])]]⟩

/-- A word appears as the target of some edge of the matrix. -/
def isTarget (m : TMatrix) (t : Word) : Prop :=
  ∃ s ∈ m, ∃ e ∈ s.2, e.1 = t

/-- The last matrix of the list (if any) has only END targets. -/
def lastEndsOnly : List TMatrix → Prop
  | [] => True
  | [m] => matEndsOnly m
  | _ :: rest => lastEndsOnly rest

theorem elemW_iff (w : Word) (l : List Word) : elemW w l = true ↔ w ∈ l := by
  induction l with
  | nil => simp [elemW]
  | cons x xs ih =>
    simp only [elemW]
    by_cases h : x = w
    · subst h
      simp
    · rw [if_neg h, ih]
      constructor
      · intro h2
        exact List.mem_cons_of_mem _ h2
      · intro h2
        rcases List.mem_cons.mp h2 with h3 | h3
        · exact absurd h3.symm h
        · exact h3

theorem rowNonempty_iff (row : Row) : rowNonempty row = true ↔ row ≠ [] := by
  cases row <;> simp [rowNonempty]

theorem rowSum_pos (row : Row) (hne : row ≠ []) (hpos : ∀ e ∈ row, 0 < e.2) :
    0 < rowSum row := by
  induction row with
  | nil => exact absurd rfl hne
  | cons e rest ih =>
    have he : 0 < e.2 := hpos e (by simp)
    rcases rest with _ | ⟨f, rest2⟩
    · simpa [rowSum] using he
    · have hr : 0 < rowSum (f :: rest2) :=
        ih (by simp) (fun x hx => hpos x (by simp [hx]))
      have : (0 : ℚ) < e.2 + rowSum (f :: rest2) := by linarith
      simpa [rowSum] using this

theorem rowSum_nonneg (row : Row) (hpos : ∀ e ∈ row, 0 < e.2) :
    0 ≤ rowSum row := by
  rcases row with _ | ⟨e, rest⟩
  · simp [rowSum]
  · exact le_of_lt (rowSum_pos _ (by simp) hpos)

theorem rowSum_normalizeRow (row : Row) (h : rowSum row ≠ 0) :
    rowSum (normalizeRow row) = 1 := by
  have key : ∀ (r : Row) (s : ℚ), rowSum (r.map (fun e => (e.1, e.2 / s))) = rowSum r / s := by
    intro r s
    induction r with
    | nil => simp [rowSum]
    | cons e rest ih => simp [rowSum, ih, add_div]
  unfold normalizeRow
  rw [key]
  exact div_self h

theorem getRow_mem {m : TMatrix} {w : Word} {row : Row} (h : getRow m w = some row) :
    (w, row) ∈ m := by
  induction m with
  | nil => simp [getRow] at h
  | cons s rest ih =>
    by_cases hw : s.1 = w
    · subst hw
      simp [getRow] at h
      rw [← h]
      exact List.mem_cons_self _ _
    · simp [getRow, hw] at h
      right
      exact ih h

theorem getRow_of_key {m : TMatrix} {w : Word} (h : w ∈ sourceKeys m) :
    ∃ row, getRow m w = some row ∧ (w, row) ∈ m := by
  induction m with
  | nil => simp [sourceKeys] at h
  | cons s rest ih =>
    by_cases hw : s.1 = w
    · exact ⟨s.2, by simp [getRow, hw], by subst hw; exact List.mem_cons_self _ _⟩
    · simp [sourceKeys] at h
      rcases h with h | h
      · exact absurd h.symm hw
      · rcases ih (by simpa [sourceKeys] using h) with ⟨row, h1, h2⟩
        exact ⟨row, by simp [getRow, hw, h1], by right; exact h2⟩

theorem getVal_of_key {row : Row} {w : Word} (h : w ∈ row.map Prod.fst) :
    ∃ p, getVal row w = some p ∧ (w, p) ∈ row := by
  induction row with
  | nil => simp at h
  | cons e rest ih =>
    by_cases hw : e.1 = w
    · exact ⟨e.2, by simp [getVal, hw], by subst hw; exact List.mem_cons_self _ _⟩
    · simp at h
      rcases h with h | h
      · exact absurd h.symm hw
      · rcases ih (by simpa using h) with ⟨p, h1, h2⟩
        exact ⟨p, by simp [getVal, hw, h1], by right; exact h2⟩

theorem lookupWeight_pos {m : TMatrix} {w w2 : Word} {row : Row}
    (hrow : getRow m w = some row) (hkey : w2 ∈ row.map Prod.fst)
    (hpos : ∀ e ∈ row, 0 < e.2) : 0 < lookupWeight m w w2 := by
  rcases getVal_of_key hkey with ⟨p, h1, h2⟩
  have : lookupWeight m w w2 = p := by simp [lookupWeight, hrow, h1]
  rw [this]
  exact hpos _ h2

theorem getNextWordGo_mem {row : Row} {r acc : ℚ} (hle : acc ≤ r)
    (hlt : r < acc + rowSum row) :
    ∃ w, getNextWordGo r row acc = some w ∧ w ∈ row.map Prod.fst := by
  induction row generalizing acc with
  | nil =>
    exfalso
    simp [rowSum] at hlt
    exact absurd hlt (not_lt.mpr hle)
  | cons e rest ih =>
    by_cases h : r < acc + e.2
    · exact ⟨e.1, by simp [getNextWordGo, h], by simp⟩
    · have hle2 : acc + e.2 ≤ r := not_lt.mp h
      have hlt2 : r < (acc + e.2) + rowSum rest := by
        have : rowSum (e :: rest) = e.2 + rowSum rest := rfl
        rw [this] at hlt
        linarith
      rcases ih hle2 hlt2 with ⟨w, h1, h2⟩
      exact ⟨w, by simp [getNextWordGo, h, h1], by simp [h2]⟩

theorem getNextWord_mem {row : Row} {r : ℚ} (h0 : 0 ≤ r) (h1 : r < rowSum row) :
    ∃ w, getNextWord row r = some w ∧ w ∈ row.map Prod.fst := by
  have := @getNextWordGo_mem row r 0 h0 (by simpa using h1)
  simpa [getNextWord] using this

theorem getD_mem_or_nil (ms : List TMatrix) (i : Nat) :
    ms.getD i [] ∈ ms ∨ ms.getD i [] = [] := by
  induction ms generalizing i with
  | nil => simp
  | cons m rest ih =>
    cases i with
    | zero => simp
    | succ j =>
      rcases ih j with h | h
      · left
        simpa using Or.inr h
      · right
        simpa using h

theorem removeDeadNodes_length (ms : List TMatrix) :
    (removeDeadNodes ms).length = ms.length := by
  induction ms with
  | nil => rfl
  | cons m rest ih =>
    rcases h : removeDeadNodes rest with _ | ⟨m2, rest2⟩ <;> rw [h] at ih
    · simp [removeDeadNodes, h]
      simpa using ih.symm
    · simp only [removeDeadNodes, h, List.length_cons]
      simp at ih ⊢
      omega

theorem removeDeadNodes_cons_of {rest : List TMatrix} {m m2 : TMatrix}
    {rest2 : List TMatrix} (h : removeDeadNodes rest = m2 :: rest2) :
    removeDeadNodes (m :: rest) = pruneMat (sourceKeys m2) m :: m2 :: rest2 := by
  simp only [removeDeadNodes, h]

theorem pruneMat_mem {alive : List Word} {m : TMatrix} {s : Word × Row}
    (h : s ∈ pruneMat alive m) :
    ∃ row0, (s.1, row0) ∈ m ∧ s.2 = row0.filter (fun e => elemW e.1 alive) ∧ s.2 ≠ [] := by
  unfold pruneMat at h
  rcases List.mem_filter.mp h with ⟨h1, h2⟩
  rcases List.mem_map.mp h1 with ⟨s0, hs0, heq⟩
  refine ⟨s0.2, ?_, ?_, (rowNonempty_iff _).mp h2⟩
  · have : s.1 = s0.1 := by rw [← heq]
    rw [this]
    simpa using hs0
  · rw [← heq]

theorem filterNE_mem {m : TMatrix} {s : Word × Row}
    (h : s ∈ m.filter (fun s => rowNonempty s.2)) : s ∈ m ∧ s.2 ≠ [] := by
  rcases List.mem_filter.mp h with ⟨h1, h2⟩
  exact ⟨h1, (rowNonempty_iff _).mp h2⟩

theorem rdn_mem {ms : List TMatrix} {i : Nat} {s : Word × Row}
    (h : s ∈ (removeDeadNodes ms).getD i []) :
    ∃ row0, (s.1, row0) ∈ ms.getD i [] ∧ (∀ e ∈ s.2, e ∈ row0) ∧ s.2 ≠ [] := by
  induction ms generalizing i with
  | nil => simp [removeDeadNodes] at h
  | cons m rest ih =>
    rcases hrec : removeDeadNodes rest with _ | ⟨m2, rest2⟩
    · rw [hrec] at ih
      cases i with
      | zero =>
        simp only [removeDeadNodes, hrec, List.getD_cons_zero] at h
        rcases filterNE_mem h with ⟨h1, h2⟩
        exact ⟨s.2, by simpa using h1, fun e he => he, h2⟩
      | succ j =>
        simp only [removeDeadNodes, hrec] at h
        simp at h
    · rw [hrec] at ih
      cases i with
      | zero =>
        simp only [removeDeadNodes, hrec, List.getD_cons_zero] at h
        rcases pruneMat_mem h with ⟨row0, h1, h2, h3⟩
        refine ⟨row0, by simpa using h1, ?_, h3⟩
        intro e he
        rw [h2] at he
        exact (List.mem_filter.mp he).1
      | succ j =>
        simp only [removeDeadNodes, hrec, List.getD_cons_succ] at h
        simp only [List.getD_cons_succ]
        exact ih h

theorem rdn_nonempty {ms : List TMatrix} {i : Nat} {s : Word × Row}
    (h : s ∈ (removeDeadNodes ms).getD i []) : s.2 ≠ [] := by
  rcases rdn_mem h with ⟨_, _, _, h3⟩
  exact h3

theorem rdn_chain {ms : List TMatrix} {i : Nat} {s : Word × Row} {e : Word × ℚ}
    (h : s ∈ (removeDeadNodes ms).getD i []) (he : e ∈ s.2) (hbound : i + 1 < ms.length) :
    e.1 ∈ sourceKeys ((removeDeadNodes ms).getD (i + 1) []) := by
  induction ms generalizing i with
  | nil => simp at hbound
  | cons m rest ih =>
    rcases hrec : removeDeadNodes rest with _ | ⟨m2, rest2⟩
    · have hlen : rest.length = 0 := by
        have := removeDeadNodes_length rest
        rw [hrec] at this
        simpa using this.symm
      exfalso
      rw [List.length_cons, hlen] at hbound
      omega
    · cases i with
      | zero =>
        simp only [removeDeadNodes, hrec, List.getD_cons_zero] at h
        rcases pruneMat_mem h with ⟨row0, _, h2, _⟩
        rw [h2] at he
        have := (List.mem_filter.mp he).2
        simp only [removeDeadNodes, hrec, List.getD_cons_succ, List.getD_cons_zero]
        exact (elemW_iff _ _).mp this
      | succ j =>
        rw [removeDeadNodes_cons_of hrec] at h ⊢
        rw [List.getD_cons_succ] at h ⊢
        rw [← hrec] at h ⊢
        refine ih h ?_
        rw [List.length_cons] at hbound
        omega

theorem constrainMat_mem {f : Word → Word → Bool} {m : TMatrix} {s : Word × Row}
    (h : s ∈ constrainMat f m) :
    ∃ row0, (s.1, row0) ∈ m ∧ s.2 = row0.filter (fun e => f s.1 e.1) := by
  unfold constrainMat at h
  rcases List.mem_map.mp h with ⟨s0, hs0, heq⟩
  subst heq
  exact ⟨s0.2, by simpa using hs0, rfl⟩

theorem sourceKeys_constrainMat (f : Word → Word → Bool) (m : TMatrix) :
    sourceKeys (constrainMat f m) = sourceKeys m := by
  unfold constrainMat sourceKeys
  rw [List.map_map]
  rfl

theorem applyConstraintsFrom_getD (ok : Nat → Word → Word → Bool) (ms : List TMatrix)
    (j i : Nat) :
    (applyConstraintsFrom ok j ms).getD i [] = constrainMat (ok (j + i)) (ms.getD i []) := by
  induction ms generalizing i j with
  | nil => simp [applyConstraintsFrom, constrainMat]
  | cons m rest ih =>
    cases i with
    | zero => simp [applyConstraintsFrom]
    | succ k =>
      simp only [applyConstraintsFrom, List.getD_cons_succ]
      rw [ih]
      have : j + 1 + k = j + (k + 1) := by omega
      rw [this]

theorem applyConstraints_getD (ok : Nat → Word → Word → Bool) (ms : List TMatrix) (i : Nat) :
    (applyConstraints ok ms).getD i [] = constrainMat (ok i) (ms.getD i []) := by
  have := applyConstraintsFrom_getD ok ms 0 i
  simpa [applyConstraints] using this

theorem applyConstraintsFrom_length (ok : Nat → Word → Word → Bool) (j : Nat)
    (ms : List TMatrix) : (applyConstraintsFrom ok j ms).length = ms.length := by
  induction ms generalizing j with
  | nil => rfl
  | cons m rest ih => simp [applyConstraintsFrom, ih]

theorem getD_map_mat (f : TMatrix → TMatrix) (hf : f [] = []) (ms : List TMatrix) (i : Nat) :
    (ms.map f).getD i [] = f (ms.getD i []) := by
  induction ms generalizing i with
  | nil => simp [hf]
  | cons m rest ih =>
    cases i with
    | zero => simp
    | succ j =>
      rw [List.map_cons, List.getD_cons_succ, List.getD_cons_succ]
      exact ih j

theorem normalize_getD (ms : List TMatrix) (i : Nat) :
    (normalize ms).getD i [] = normMat (ms.getD i []) :=
  getD_map_mat normMat rfl ms i

theorem keys_normalizeRow (row : Row) :
    (normalizeRow row).map Prod.fst = row.map Prod.fst := by
  unfold normalizeRow
  rw [List.map_map]
  rfl

theorem sourceKeys_normMat (m : TMatrix) : sourceKeys (normMat m) = sourceKeys m := by
  unfold normMat sourceKeys
  rw [List.map_map]
  rfl

theorem getRow_normMat (m : TMatrix) (w : Word) :
    getRow (normMat m) w = (getRow m w).map normalizeRow := by
  induction m with
  | nil => simp [getRow, normMat]
  | cons s rest ih =>
    by_cases h : s.1 = w
    · simp [normMat, getRow, h]
    · simpa [normMat, getRow, h] using ih

theorem incrementRow_pos {row : Row} {nw : Word} (h : ∀ e ∈ row, 0 < e.2) :
    ∀ e ∈ incrementRow row nw, 0 < e.2 := by
  induction row with
  | nil =>
    intro e he
    simp [incrementRow] at he
    rw [he]
    norm_num
  | cons f rest ih =>
    intro e he
    by_cases hf : f.1 = nw
    · simp only [incrementRow, if_pos hf] at he
      rcases List.mem_cons.mp he with h1 | h1
      · rw [h1]
        have := h f (by simp)
        simp only
        linarith
      · exact h e (by simp [h1])
    · simp only [incrementRow, if_neg hf] at he
      rcases List.mem_cons.mp he with h1 | h1
      · rw [h1]
        exact h f (by simp)
      · exact ih (fun x hx => h x (by simp [hx])) e h1

theorem incrementRow_keys {row : Row} {nw : Word} {e : Word × ℚ}
    (he : e ∈ incrementRow row nw) : e.1 ∈ row.map Prod.fst ∨ e.1 = nw := by
  induction row with
  | nil =>
    simp [incrementRow] at he
    right
    rw [he]
  | cons f rest ih =>
    by_cases hf : f.1 = nw
    · simp only [incrementRow, if_pos hf] at he
      rcases List.mem_cons.mp he with h1 | h1
      · left
        rw [h1]
        simp
      · left
        exact List.mem_map_of_mem Prod.fst (List.mem_cons_of_mem f h1)
    · simp only [incrementRow, if_neg hf] at he
      rcases List.mem_cons.mp he with h1 | h1
      · left
        rw [h1]
        simp
      · rcases ih h1 with h2 | h2
        · left
          simp [h2]
        · right
          exact h2

theorem increment_pos {m : TMatrix} {w nw : Word} (h : matPos m) :
    matPos (increment m w nw) := by
  induction m with
  | nil =>
    intro s hs e he
    simp [increment] at hs
    rw [hs] at he
    simp at he
    rw [he]
    norm_num
  | cons s0 rest ih =>
    intro s hs e he
    by_cases hw : s0.1 = w
    · simp only [increment, if_pos hw] at hs
      rcases List.mem_cons.mp hs with h1 | h1
      · rw [h1] at he
        exact incrementRow_pos (h s0 (by simp)) e he
      · exact h s (by simp [h1]) e he
    · simp only [increment, if_neg hw] at hs
      rcases List.mem_cons.mp hs with h1 | h1
      · exact h s (by simp [h1]) e he
      · exact ih (fun x hx => h x (by simp [hx])) s h1 e he

theorem increment_sources {m : TMatrix} {w nw : Word} {s : Word × Row}
    (hs : s ∈ increment m w nw) : s.1 ∈ sourceKeys m ∨ s.1 = w := by
  induction m with
  | nil =>
    simp [increment] at hs
    right
    rw [hs]
  | cons s0 rest ih =>
    by_cases hw : s0.1 = w
    · simp only [increment, if_pos hw] at hs
      rcases List.mem_cons.mp hs with h1 | h1
      · right
        rw [h1]
        exact hw
      · left
        exact List.mem_map_of_mem Prod.fst (List.mem_cons_of_mem s0 h1)
    · simp only [increment, if_neg hw] at hs
      rcases List.mem_cons.mp hs with h1 | h1
      · left
        rw [h1]
        exact List.mem_map_of_mem Prod.fst (List.mem_cons_self _ _)
      · rcases ih h1 with h2 | h2
        · left
          exact List.mem_cons_of_mem s0.1 h2
        · right
          exact h2

theorem increment_targets {m : TMatrix} {w nw : Word} {s : Word × Row} {e : Word × ℚ}
    (hs : s ∈ increment m w nw) (he : e ∈ s.2) : isTarget m e.1 ∨ e.1 = nw := by
  induction m with
  | nil =>
    simp [increment] at hs
    rw [hs] at he
    simp at he
    right
    rw [he]
  | cons s0 rest ih =>
    by_cases hw : s0.1 = w
    · simp only [increment, if_pos hw] at hs
      rcases List.mem_cons.mp hs with h1 | h1
      · rw [h1] at he
        simp only at he
        rcases incrementRow_keys he with h2 | h2
        · rcases List.mem_map.mp h2 with ⟨e0, he0, heq⟩
          left
          exact ⟨s0, by simp, e0, he0, heq⟩
        · right
          exact h2
      · left
        exact ⟨s, by simp [h1], e, he, rfl⟩
    · simp only [increment, if_neg hw] at hs
      rcases List.mem_cons.mp hs with h1 | h1
      · left
        exact ⟨s0, by simp, e, by rw [← h1]; exact he, rfl⟩
      · rcases ih h1 with h2 | h2
        · rcases h2 with ⟨s1, hs1, e1, he1, heq⟩
          left
          exact ⟨s1, by simp [hs1], e1, he1, heq⟩
        · right
          exact h2

theorem increment_sources_key {m : TMatrix} {w nw u : Word}
    (h : u ∈ sourceKeys (increment m w nw)) : u ∈ sourceKeys m ∨ u = w := by
  rcases List.mem_map.mp h with ⟨s, hs, heq⟩
  rcases increment_sources hs with h2 | h2
  · left
    rw [← heq]
    exact h2
  · right
    rw [← heq]
    exact h2

theorem increment_targets_key {m : TMatrix} {w nw t : Word}
    (h : isTarget (increment m w nw) t) : isTarget m t ∨ t = nw := by
  rcases h with ⟨s, hs, e, he, heq⟩
  rcases increment_targets hs he with h2 | h2
  · left
    rw [← heq]
    exact h2
  · right
    rw [← heq]
    exact h2

theorem addSequence_length (ms : List TMatrix) (tokens : List Word) :
    (addSequence ms tokens).length = ms.length := by
  induction ms generalizing tokens with
  | nil =>
    cases tokens with
    | nil => rfl
    | cons t1 rest => cases rest <;> rfl
  | cons m ms2 ih =>
    cases tokens with
    | nil => rfl
    | cons t1 rest =>
      cases rest with
      | nil => rfl
      | cons t2 ts => simp [addSequence, ih]

theorem addSequence_pos {ms : List TMatrix} {tokens : List Word}
    (h : ∀ m ∈ ms, matPos m) : ∀ m ∈ addSequence ms tokens, matPos m := by
  induction ms generalizing tokens with
  | nil =>
    cases tokens with
    | nil => exact h
    | cons t1 rest => cases rest <;> exact h
  | cons m ms2 ih =>
    cases tokens with
    | nil => exact h
    | cons t1 rest =>
      cases rest with
      | nil => exact h
      | cons t2 ts =>
        intro x hx
        simp only [addSequence] at hx
        rcases List.mem_cons.mp hx with h1 | h1
        · rw [h1]
          exact increment_pos (h m (by simp))
        · exact ih (fun y hy => h y (by simp [hy])) x h1

theorem addSequence_sources {ms : List TMatrix} {tokens : List Word} {i : Nat} {w : Word}
    (h : w ∈ sourceKeys ((addSequence ms tokens).getD i [])) :
    w ∈ sourceKeys (ms.getD i []) ∨ (i + 1 < tokens.length ∧ w = tokens.getD i END) := by
  induction ms generalizing tokens i with
  | nil =>
    left
    cases tokens with
    | nil => exact h
    | cons t1 rest => cases rest <;> exact h
  | cons m ms2 ih =>
    cases tokens with
    | nil => exact Or.inl h
    | cons t1 rest =>
      cases rest with
      | nil => exact Or.inl h
      | cons t2 ts =>
        cases i with
        | zero =>
          simp only [addSequence, List.getD_cons_zero] at h
          rcases increment_sources_key h with h2 | h2
          · exact Or.inl h2
          · refine Or.inr ⟨?_, h2⟩
            simp
        | succ j =>
          simp only [addSequence, List.getD_cons_succ] at h ⊢
          rcases ih h with h2 | h2
          · exact Or.inl h2
          · refine Or.inr ⟨?_, h2.2⟩
            have := h2.1
            simp at this ⊢
            omega

theorem addSequence_targets {ms : List TMatrix} {tokens : List Word} {i : Nat} {t : Word}
    (h : isTarget ((addSequence ms tokens).getD i []) t) :
    isTarget (ms.getD i []) t ∨ (i + 1 < tokens.length ∧ t = tokens.getD (i + 1) END) := by
  induction ms generalizing tokens i with
  | nil =>
    left
    cases tokens with
    | nil => exact h
    | cons t1 rest => cases rest <;> exact h
  | cons m ms2 ih =>
    cases tokens with
    | nil => exact Or.inl h
    | cons t1 rest =>
      cases rest with
      | nil => exact Or.inl h
      | cons t2 ts =>
        cases i with
        | zero =>
          simp only [addSequence, List.getD_cons_zero] at h
          rcases increment_targets_key h with h2 | h2
          · exact Or.inl h2
          · refine Or.inr ⟨?_, ?_⟩
            · simp
            · simpa using h2
        | succ j =>
          simp only [addSequence, List.getD_cons_succ] at h ⊢
          rcases ih h with h2 | h2
          · exact Or.inl h2
          · refine Or.inr ⟨?_, ?_⟩
            · have := h2.1
              simp at this ⊢
              omega
            · simpa using h2.2

theorem foldl_sources {tseqs : List (List Word)} {init : List TMatrix} {i : Nat} {w : Word}
    (h : w ∈ sourceKeys
      ((tseqs.foldl (fun ms ws => addSequence ms (ws ++ [END])) init).getD i [])) :
    w ∈ sourceKeys (init.getD i []) ∨
      ∃ ws ∈ tseqs, i + 1 < (ws ++ [END]).length ∧ w = (ws ++ [END]).getD i END := by
  induction tseqs generalizing init with
  | nil => exact Or.inl h
  | cons ws0 rest ih =>
    simp only [List.foldl_cons] at h
    rcases ih h with h1 | h1
    · rcases addSequence_sources h1 with h2 | h2
      · exact Or.inl h2
      · exact Or.inr ⟨ws0, by simp, h2.1, h2.2⟩
    · rcases h1 with ⟨ws, hws, hlen, heq⟩
      exact Or.inr ⟨ws, by simp [hws], hlen, heq⟩

theorem foldl_targets {tseqs : List (List Word)} {init : List TMatrix} {i : Nat} {t : Word}
    (h : isTarget
      ((tseqs.foldl (fun ms ws => addSequence ms (ws ++ [END])) init).getD i []) t) :
    isTarget (init.getD i []) t ∨
      ∃ ws ∈ tseqs, i + 1 < (ws ++ [END]).length ∧ t = (ws ++ [END]).getD (i + 1) END := by
  induction tseqs generalizing init with
  | nil => exact Or.inl h
  | cons ws0 rest ih =>
    simp only [List.foldl_cons] at h
    rcases ih h with h1 | h1
    · rcases addSequence_targets h1 with h2 | h2
      · exact Or.inl h2
      · exact Or.inr ⟨ws0, by simp, h2.1, h2.2⟩
    · rcases h1 with ⟨ws, hws, hlen, heq⟩
      exact Or.inr ⟨ws, by simp [hws], hlen, heq⟩

theorem foldl_pos {tseqs : List (List Word)} {init : List TMatrix}
    (h : ∀ m ∈ init, matPos m) :
    ∀ m ∈ tseqs.foldl (fun ms ws => addSequence ms (ws ++ [END])) init, matPos m := by
  induction tseqs generalizing init with
  | nil => exact h
  | cons ws0 rest ih =>
    simp only [List.foldl_cons]
    exact ih (addSequence_pos h)

theorem foldl_length (tseqs : List (List Word)) (init : List TMatrix) :
    (tseqs.foldl (fun ms ws => addSequence ms (ws ++ [END])) init).length = init.length := by
  induction tseqs generalizing init with
  | nil => rfl
  | cons ws0 rest ih =>
    simp only [List.foldl_cons]
    rw [ih, addSequence_length]

theorem replicate_getD (n i : Nat) : (List.replicate n ([] : TMatrix)).getD i [] = [] := by
  induction n generalizing i with
  | zero => simp
  | succ k ih =>
    cases i with
    | zero => simp
    | succ j =>
      rw [List.replicate_succ, List.getD_cons_succ]
      exact ih j

theorem bf_length (len : Nat) (tseqs : List (List Word)) :
    (buildFrequencies len tseqs).length = len := by
  unfold buildFrequencies
  rw [foldl_length]
  simp

theorem bf_sources {len : Nat} {tseqs : List (List Word)} {i : Nat} {w : Word}
    (h : w ∈ sourceKeys ((buildFrequencies len tseqs).getD i [])) :
    ∃ ws ∈ tseqs, i + 1 < (ws ++ [END]).length ∧ w = (ws ++ [END]).getD i END := by
  unfold buildFrequencies at h
  rcases foldl_sources h with h1 | h1
  · rw [replicate_getD] at h1
    simp [sourceKeys] at h1
  · exact h1

theorem bf_targets {len : Nat} {tseqs : List (List Word)} {i : Nat} {t : Word}
    (h : isTarget ((buildFrequencies len tseqs).getD i []) t) :
    ∃ ws ∈ tseqs, i + 1 < (ws ++ [END]).length ∧ t = (ws ++ [END]).getD (i + 1) END := by
  unfold buildFrequencies at h
  rcases foldl_targets h with h1 | h1
  · rw [replicate_getD] at h1
    rcases h1 with ⟨s, hs, _⟩
    simp at hs
  · exact h1

theorem bf_pos (len : Nat) (tseqs : List (List Word)) :
    ∀ m ∈ buildFrequencies len tseqs, matPos m := by
  unfold buildFrequencies
  refine foldl_pos ?_
  intro m hm
  rw [List.eq_of_mem_replicate hm]
  intro s hs
  simp at hs

theorem tokens_getD_mem {ws : List Word} {i : Nat} (h : i < ws.length) :
    (ws ++ [END]).getD i END ∈ ws := by
  induction ws generalizing i with
  | nil => simp at h
  | cons a rest ih =>
    cases i with
    | zero => simp
    | succ j =>
      have := @ih j (by simpa using h)
      simpa using Or.inr this

theorem tokens_getD_last (ws : List Word) : (ws ++ [END]).getD ws.length END = END := by
  induction ws with
  | nil => simp
  | cons a rest ih => simp [ih]

theorem wordFrequencies_pos {tseqs : List (List Word)} {ws : List Word} {w : Word}
    (hws : ws ∈ tseqs) (hw : w ∈ ws) : 0 < wordFrequencies tseqs w := by
  induction tseqs with
  | nil => simp at hws
  | cons ws0 rest ih =>
    unfold wordFrequencies
    simp only [List.map_cons, List.sum_cons]
    rcases List.mem_cons.mp hws with h | h
    · have hc : 0 < ws0.count w := List.count_pos_iff.mpr (h ▸ hw)
      omega
    · have := ih h
      unfold wordFrequencies at this
      omega

theorem constrainMat_pos {f : Word → Word → Bool} {m : TMatrix} (h : matPos m) :
    matPos (constrainMat f m) := by
  intro s hs e he
  rcases constrainMat_mem hs with ⟨row0, h1, h2⟩
  rw [h2] at he
  exact h (s.1, row0) h1 e (List.mem_filter.mp he).1

theorem bf_layerPos (len : Nat) (tseqs : List (List Word)) (i : Nat) :
    matPos ((buildFrequencies len tseqs).getD i []) := by
  rcases getD_mem_or_nil (buildFrequencies len tseqs) i with h | h
  · exact bf_pos len tseqs _ h
  · rw [h]
    intro s hs
    simp at hs

theorem trainPruned_pos (tseqs : List (List Word)) (len : Nat)
    (ok : Nat → Word → Word → Bool) (i : Nat) :
    matPos ((trainPruned tseqs len ok).getD i []) := by
  intro s hs e he
  rcases rdn_mem hs with ⟨row0, h1, h2, _⟩
  rw [applyConstraints_getD] at h1
  exact constrainMat_pos (bf_layerPos len tseqs i) (s.1, row0) h1 e (h2 e he)

theorem trainPruned_sources {tseqs : List (List Word)} {len : Nat}
    {ok : Nat → Word → Word → Bool} {i : Nat} {w : Word}
    (h : w ∈ sourceKeys ((trainPruned tseqs len ok).getD i [])) :
    ∃ ws ∈ tseqs, i < ws.length ∧ w = (ws ++ [END]).getD i END := by
  rcases List.mem_map.mp h with ⟨s, hs, heq⟩
  rcases rdn_mem hs with ⟨row0, h1, _, _⟩
  rw [applyConstraints_getD] at h1
  have hk0 := List.mem_map_of_mem Prod.fst h1
  have hk : s.1 ∈ sourceKeys (constrainMat (ok i) ((buildFrequencies len tseqs).getD i [])) :=
    hk0
  rw [sourceKeys_constrainMat] at hk
  rcases bf_sources hk with ⟨ws, hws, hlen, heq2⟩
  refine ⟨ws, hws, ?_, ?_⟩
  · simp at hlen
    omega
  · rw [← heq]
    exact heq2

theorem trainPruned_nonsentinel {tseqs : List (List Word)} {len : Nat}
    {ok : Nat → Word → Word → Bool} {i : Nat} {w : Word}
    (hS : ∀ ws ∈ tseqs, ∀ u ∈ ws, u ≠ START ∧ u ≠ END)
    (h : w ∈ sourceKeys ((trainPruned tseqs len ok).getD i [])) :
    w ≠ START ∧ w ≠ END := by
  rcases trainPruned_sources h with ⟨ws, hws, hlt, heq⟩
  have : w ∈ ws := heq ▸ tokens_getD_mem hlt
  exact hS ws hws w this

theorem trainPruned_lastEnd {tseqs : List (List Word)} {len : Nat}
    {ok : Nat → Word → Word → Bool} {i : Nat}
    (HL : ∀ ws ∈ tseqs, ws.length = len) (hi : i + 1 = len) :
    ∀ s ∈ (trainPruned tseqs len ok).getD i [], ∀ e ∈ s.2, e.1 = END := by
  intro s hs e he
  rcases rdn_mem hs with ⟨row0, h1, h2, _⟩
  have he0 : e ∈ row0 := h2 e he
  rw [applyConstraints_getD] at h1
  rcases constrainMat_mem h1 with ⟨row1, h3, h4⟩
  dsimp only at h3 h4
  have he1 : e ∈ row1 := by
    rw [h4] at he0
    exact (List.mem_filter.mp he0).1
  have ht : isTarget ((buildFrequencies len tseqs).getD i []) e.1 :=
    ⟨(s.1, row1), h3, e, he1, rfl⟩
  rcases bf_targets ht with ⟨ws, hws, _, heq⟩
  have hwslen : ws.length = len := HL ws hws
  rw [heq]
  have : i + 1 = ws.length := by omega
  rw [this]
  exact tokens_getD_last ws

theorem applyConstraints_length (ok : Nat → Word → Word → Bool) (ms : List TMatrix) :
    (applyConstraints ok ms).length = ms.length :=
  applyConstraintsFrom_length ok 0 ms

theorem trainPruned_length (tseqs : List (List Word)) (len : Nat)
    (ok : Nat → Word → Word → Bool) : (trainPruned tseqs len ok).length = len := by
  unfold trainPruned
  rw [removeDeadNodes_length, applyConstraints_length, bf_length]

theorem trainPruned_chain {tseqs : List (List Word)} {len : Nat}
    {ok : Nat → Word → Word → Bool} {i : Nat} {s : Word × Row} {e : Word × ℚ}
    (hs : s ∈ (trainPruned tseqs len ok).getD i []) (he : e ∈ s.2) (hb : i + 1 < len) :
    e.1 ∈ sourceKeys ((trainPruned tseqs len ok).getD (i + 1) []) := by
  unfold trainPruned at hs ⊢
  refine rdn_chain hs he ?_
  rw [applyConstraints_length, bf_length]
  exact hb

theorem trainPruned_ok {tseqs : List (List Word)} {len : Nat}
    {ok : Nat → Word → Word → Bool} {i : Nat} {s : Word × Row} {e : Word × ℚ}
    (hs : s ∈ (trainPruned tseqs len ok).getD i []) (he : e ∈ s.2) :
    ok i s.1 e.1 = true := by
  rcases rdn_mem hs with ⟨row0, h1, h2, _⟩
  rw [applyConstraints_getD] at h1
  rcases constrainMat_mem h1 with ⟨row1, _, h4⟩
  dsimp only at h4
  have he0 : e ∈ row0 := h2 e he
  rw [h4] at he0
  exact (List.mem_filter.mp he0).2

theorem train_eq {tseqs : List (List Word)} {len : Nat} {ok : Nat → Word → Word → Bool}
    {model : CMModel} (h : train tseqs len ok = some model) :
    model.sentenceLength = len ∧
      model.matrices = normalize (addStartTransition tseqs (trainPruned tseqs len ok)) ∧
      (trainPruned tseqs len ok).getD 0 [] ≠ [] := by
  rw [show train tseqs len ok =
      (if (trainPruned tseqs len ok).getD 0 [] = [] then none
       else some ⟨len, normalize (addStartTransition tseqs (trainPruned tseqs len ok))⟩)
      from rfl] at h
  by_cases hc : (trainPruned tseqs len ok).getD 0 [] = []
  · rw [if_pos hc] at h
    cases h
  · rw [if_neg hc] at h
    have h2 := Option.some.inj h
    refine ⟨?_, ?_, hc⟩
    · rw [← h2]
    · rw [← h2]

theorem mem_getD {ms : List TMatrix} {m : TMatrix} (h : m ∈ ms) :
    ∃ i, i < ms.length ∧ ms.getD i [] = m := by
  rcases List.mem_iff_getElem.mp h with ⟨i, hi, heq⟩
  exact ⟨i, hi, by rw [List.getD_eq_getElem _ _ hi]; exact heq⟩

theorem START_ne_END : START ≠ END := by
  decide

theorem normMat_mem {m0 : TMatrix} {s : Word × Row} (h : s ∈ normMat m0) :
    ∃ s0 ∈ m0, s.1 = s0.1 ∧ s.2 = normalizeRow s0.2 := by
  unfold normMat at h
  rcases List.mem_map.mp h with ⟨s0, hs0, heq⟩
  subst heq
  exact ⟨s0, hs0, rfl, rfl⟩

theorem normalizeRow_good {row : Row} (hne : row ≠ []) (hpos : ∀ e ∈ row, 0 < e.2) :
    normalizeRow row ≠ [] ∧ rowSum (normalizeRow row) = 1 := by
  have hsum := rowSum_pos row hne hpos
  constructor
  · unfold normalizeRow
    intro hx
    exact hne (List.map_eq_nil.mp hx)
  · exact rowSum_normalizeRow row (ne_of_gt hsum)

theorem startRow_pos (tseqs : List (List Word)) (len : Nat) (ok : Nat → Word → Word → Bool) :
    ∀ e ∈ startRow tseqs (sourceKeys ((trainPruned tseqs len ok).getD 0 [])), 0 < e.2 := by
  intro e he
  unfold startRow at he
  rcases List.mem_map.mp he with ⟨w, hw, heq⟩
  subst heq
  rcases trainPruned_sources hw with ⟨ws, hws, hlt, heqw⟩
  have hmem : w ∈ ws := heqw ▸ tokens_getD_mem hlt
  have := wordFrequencies_pos hws hmem
  simp only
  exact_mod_cast this

theorem startRow_ne_nil (tseqs : List (List Word)) (len : Nat)
    (ok : Nat → Word → Word → Bool)
    (hne : (trainPruned tseqs len ok).getD 0 [] ≠ []) :
    startRow tseqs (sourceKeys ((trainPruned tseqs len ok).getD 0 [])) ≠ [] := by
  unfold startRow
  intro hx
  have h1 := List.map_eq_nil.mp hx
  exact hne (by unfold sourceKeys at h1; exact List.map_eq_nil.mp h1)

/-- C2: in every trained model, every finalized (post-normalization) row is
nonempty and its outgoing weights sum exactly to 1 (the floating-point
tolerance of the spec is exact equality in the rational model). -/
theorem trained_rows_sum_one {tseqs : List (List Word)} {len : Nat}
    {ok : Nat → Word → Word → Bool} {model : CMModel}
    (h : train tseqs len ok = some model) :
    ∀ m ∈ model.matrices, ∀ s ∈ m, s.2 ≠ [] ∧ rowSum s.2 = 1 := by
  rcases train_eq h with ⟨_, hmat, hne⟩
  intro m hm s hs
  rw [hmat] at hm
  unfold normalize addStartTransition at hm
  rcases List.mem_map.mp hm with ⟨m0, hm0, heq⟩
  subst heq
  rcases normMat_mem hs with ⟨s0, hs0, _, hrow⟩
  rcases List.mem_cons.mp hm0 with h0 | h0
  · subst h0
    have hs0X : s0 = (START, startRow tseqs (sourceKeys ((trainPruned tseqs len ok).getD 0 []))) := by
      simpa using hs0
    have hpos := startRow_pos tseqs len ok
    have hner := startRow_ne_nil tseqs len ok hne
    rw [hrow, hs0X]
    exact normalizeRow_good hner hpos
  · rcases mem_getD h0 with ⟨i, _, hgd⟩
    rw [← hgd] at hs0
    have hpos : ∀ e ∈ s0.2, 0 < e.2 := trainPruned_pos tseqs len ok i s0 hs0
    have hner : s0.2 ≠ [] := rdn_nonempty hs0
    rw [hrow]
    exact normalizeRow_good hner hpos

theorem train_exModel : train exTseqs 3 exOk = some exModel :=
  (Option.some_get _).symm

/-- C5: `train` surfaces an infeasible constraint as a construction failure —
it returns `none` exactly when arc-consistency pruning leaves layer 0 empty. -/
theorem train_none_iff_layer0_empty (tseqs : List (List Word)) (len : Nat)
    (ok : Nat → Word → Word → Bool) :
    train tseqs len ok = none ↔ (trainPruned tseqs len ok).getD 0 [] = [] := by
  rw [show train tseqs len ok =
      (if (trainPruned tseqs len ok).getD 0 [] = [] then none
       else some ⟨len, normalize (addStartTransition tseqs (trainPruned tseqs len ok))⟩)
      from rfl]
  by_cases hc : (trainPruned tseqs len ok).getD 0 [] = []
  · simp [hc]
  · simp [hc]

theorem sizes_getD (ms : List TMatrix) (i : Nat) :
    (getTransitionMatricesSizes ms).getD i 0 = (ms.getD i []).length := by
  unfold getTransitionMatricesSizes
  induction ms generalizing i with
  | nil => simp
  | cons m rest ih =>
    cases i with
    | zero => simp
    | succ j =>
      rw [List.map_cons, List.getD_cons_succ, List.getD_cons_succ]
      exact ih j

theorem rdn_getD_length (ms : List TMatrix) (i : Nat) :
    ((removeDeadNodes ms).getD i []).length ≤ (ms.getD i []).length := by
  induction ms generalizing i with
  | nil => simp [removeDeadNodes]
  | cons m rest ih =>
    rcases hrec : removeDeadNodes rest with _ | ⟨m2, rest2⟩
    · cases i with
      | zero =>
        simp only [removeDeadNodes, hrec, List.getD_cons_zero]
        exact List.length_filter_le _ _
      | succ j =>
        simp only [removeDeadNodes, hrec]
        simp
    · cases i with
      | zero =>
        rw [removeDeadNodes_cons_of hrec, List.getD_cons_zero, List.getD_cons_zero]
        unfold pruneMat
        calc (((m.map fun s => (s.1, s.2.filter fun e => elemW e.1 (sourceKeys m2))).filter
              fun s => rowNonempty s.2)).length
            ≤ ((m.map fun s => (s.1, s.2.filter fun e => elemW e.1 (sourceKeys m2)))).length :=
              List.length_filter_le _ _
          _ = m.length := List.length_map _ _
      | succ j =>
        rw [removeDeadNodes_cons_of hrec, List.getD_cons_succ, List.getD_cons_succ, ← hrec]
        exact ih j

/-- C8: constraint application followed by arc-consistency pruning never
increases the size (source-word count) of any layer's transition matrix
relative to the raw pre-constraint matrix. -/
theorem pruning_monotone (ms : List TMatrix) (ok : Nat → Word → Word → Bool) (i : Nat) :
    (getTransitionMatricesSizes (removeDeadNodes (applyConstraints ok ms))).getD i 0 ≤
      (getTransitionMatricesSizes ms).getD i 0 := by
  rw [sizes_getD, sizes_getD]
  calc ((removeDeadNodes (applyConstraints ok ms)).getD i []).length
      ≤ ((applyConstraints ok ms).getD i []).length := rdn_getD_length _ i
    _ = (ms.getD i []).length := by
        rw [applyConstraints_getD]
        unfold constrainMat
        exact List.length_map _ _

theorem filter_idem {α : Type} (p : α → Bool) (l : List α) :
    (l.filter p).filter p = l.filter p := by
  rw [List.filter_filter]
  induction l with
  | nil => rfl
  | cons a rest ih =>
    by_cases h : p a
    · simp [List.filter_cons, h, ih]
    · simp only [List.filter_cons]
      rw [if_neg (by simp [h]), if_neg (by simp [h])]
      exact ih

theorem map_fix {α : Type} (f : α → α) (l : List α) (h : ∀ x ∈ l, f x = x) :
    l.map f = l := by
  induction l with
  | nil => rfl
  | cons a rest ih =>
    rw [List.map_cons, h a (by simp), ih (fun x hx => h x (by simp [hx]))]

theorem pruneMat_idem (alive : List Word) (m : TMatrix) :
    pruneMat alive (pruneMat alive m) = pruneMat alive m := by
  unfold pruneMat
  rw [map_fix]
  · exact filter_idem _ _
  · intro x hx
    rcases List.mem_filter.mp hx with ⟨h1, _⟩
    rcases List.mem_map.mp h1 with ⟨s0, _, heq⟩
    rw [← heq]
    dsimp only
    rw [filter_idem]

/-- C9: the arc-consistency pruner is idempotent — running `removeDeadNodes` on
matrices it has already pruned removes nothing and leaves every matrix
unchanged. -/
theorem removeDeadNodes_idem (ms : List TMatrix) :
    removeDeadNodes (removeDeadNodes ms) = removeDeadNodes ms := by
  induction ms with
  | nil => rfl
  | cons m rest ih =>
    rcases hrec : removeDeadNodes rest with _ | ⟨m2, rest2⟩
    · simp only [removeDeadNodes, hrec]
      rw [filter_idem]
    · rw [hrec] at ih
      rw [removeDeadNodes_cons_of hrec, removeDeadNodes_cons_of ih, pruneMat_idem]

theorem endReachers_cons (m : TMatrix) (rest : List TMatrix) :
    endReachers (m :: rest) =
      sourceKeys (m.filter (fun s => s.2.any (fun e => elemW e.1 (endReachers rest)))) :=
  rfl

theorem removeDeadNodes_drop (ms : List TMatrix) (i : Nat) :
    (removeDeadNodes ms).drop i = removeDeadNodes (ms.drop i) := by
  induction ms generalizing i with
  | nil => simp [removeDeadNodes]
  | cons m rest ih =>
    cases i with
    | zero => rfl
    | succ j =>
      rcases hrec : removeDeadNodes rest with _ | ⟨m2, rest2⟩
      · have hrest : rest = [] := by
          have := removeDeadNodes_length rest
          rw [hrec] at this
          exact List.length_eq_zero.mp this.symm
        subst hrest
        simp [removeDeadNodes]
      · rw [removeDeadNodes_cons_of hrec, List.drop_succ_cons, ← hrec, List.drop_succ_cons]
        exact ih j

theorem getD_drop (l : List TMatrix) (j : Nat) : (l.drop j).getD 0 [] = l.getD j [] := by
  induction l generalizing j with
  | nil => simp
  | cons m rest ih =>
    cases j with
    | zero => rfl
    | succ k =>
      rw [List.drop_succ_cons, List.getD_cons_succ]
      exact ih k

theorem lastEndsOnly_cons {m : TMatrix} {rest : List TMatrix} (hne : rest ≠ [])
    (h : lastEndsOnly (m :: rest)) : lastEndsOnly rest := by
  cases rest with
  | nil => exact absurd rfl hne
  | cons r rs => exact h

theorem lastEndsOnly_drop {ms : List TMatrix} (h : lastEndsOnly ms) (i : Nat) :
    lastEndsOnly (ms.drop i) := by
  induction ms generalizing i with
  | nil => simp [lastEndsOnly]
  | cons m rest ih =>
    cases i with
    | zero => exact h
    | succ j =>
      rw [List.drop_succ_cons]
      cases rest with
      | nil => simp [lastEndsOnly]
      | cons r rs => exact ih (lastEndsOnly_cons (by simp) h) j

theorem lastEndsOnly_of_getD {ms : List TMatrix}
    (h : ∀ s ∈ ms.getD (ms.length - 1) [], ∀ e ∈ s.2, e.1 = END) :
    lastEndsOnly ms := by
  induction ms with
  | nil => trivial
  | cons m rest ih =>
    cases rest with
    | nil =>
      intro s hs e he
      exact h s (by simpa using hs) e he
    | cons r rs =>
      show lastEndsOnly (r :: rs)
      refine ih ?_
      intro s hs e he
      refine h s ?_ e he
      have hlen : (m :: r :: rs).length - 1 = ((r :: rs).length - 1) + 1 := by
        simp
      rw [hlen, List.getD_cons_succ]
      exact hs

theorem constrained_lastEnd {tseqs : List (List Word)} {len : Nat}
    {ok : Nat → Word → Word → Bool} {i : Nat}
    (HL : ∀ ws ∈ tseqs, ws.length = len) (hi : i + 1 = len) :
    ∀ s ∈ (applyConstraints ok (buildFrequencies len tseqs)).getD i [],
      ∀ e ∈ s.2, e.1 = END := by
  intro s hs e he
  rw [applyConstraints_getD] at hs
  rcases constrainMat_mem hs with ⟨row1, h3, h4⟩
  rw [h4] at he
  have he1 := (List.mem_filter.mp he).1
  have ht : isTarget ((buildFrequencies len tseqs).getD i []) e.1 :=
    ⟨(s.1, row1), h3, e, he1, rfl⟩
  rcases bf_targets ht with ⟨ws, hws, _, heq⟩
  have hwslen : ws.length = len := HL ws hws
  rw [heq]
  have hix : i + 1 = ws.length := by omega
  rw [hix]
  exact tokens_getD_last ws

theorem constrained_lastEndsOnly {tseqs : List (List Word)} {len : Nat}
    {ok : Nat → Word → Word → Bool} (HL : ∀ ws ∈ tseqs, ws.length = len) :
    lastEndsOnly (applyConstraints ok (buildFrequencies len tseqs)) := by
  apply lastEndsOnly_of_getD
  have hlen : (applyConstraints ok (buildFrequencies len tseqs)).length = len := by
    rw [applyConstraints_length, bf_length]
  rcases Nat.eq_zero_or_pos len with h0 | hpos
  · have : applyConstraints ok (buildFrequencies len tseqs) = [] := by
      rw [← List.length_eq_zero, hlen, h0]
    rw [this]
    intro s hs
    simp at hs
  · rw [hlen]
    exact constrained_lastEnd HL (by omega)

theorem rdn_head_reach : ∀ (ms : List TMatrix), lastEndsOnly ms →
    ∀ w, w ∈ sourceKeys ((removeDeadNodes ms).getD 0 []) →
    reachesEnd (removeDeadNodes ms) w = true := by
  intro ms
  induction ms with
  | nil =>
    intro _ w h
    simp [removeDeadNodes, sourceKeys] at h
  | cons m rest ih =>
    intro hEnd w h
    rcases hrec : removeDeadNodes rest with _ | ⟨m2, rest2⟩
    · have hrest : rest = [] := by
        have := removeDeadNodes_length rest
        rw [hrec] at this
        exact List.length_eq_zero.mp this.symm
      subst hrest
      have hm : matEndsOnly m := hEnd
      simp only [removeDeadNodes, List.getD_cons_zero] at h
      rcases List.mem_map.mp h with ⟨s, hsF, heqw⟩
      rcases List.mem_filter.mp hsF with ⟨hsm, hsne⟩
      have hne2 : s.2 ≠ [] := (rowNonempty_iff _).mp hsne
      rcases List.exists_mem_of_ne_nil _ hne2 with ⟨e0, he0⟩
      have hend : e0.1 = END := hm s hsm e0 he0
      simp only [removeDeadNodes]
      unfold reachesEnd
      rw [elemW_iff, endReachers_cons]
      refine List.mem_map.mpr ⟨s, List.mem_filter.mpr ⟨hsF, ?_⟩, heqw⟩
      refine List.any_eq_true.mpr ⟨e0, he0, ?_⟩
      rw [hend]
      simp [endReachers, elemW]
    · have hrest_ne : rest ≠ [] := by
        intro hx
        subst hx
        simp [removeDeadNodes] at hrec
      have hEnd2 : lastEndsOnly rest := lastEndsOnly_cons hrest_ne hEnd
      rw [removeDeadNodes_cons_of hrec, List.getD_cons_zero] at h
      rcases List.mem_map.mp h with ⟨s, hsP, heqw⟩
      rcases pruneMat_mem hsP with ⟨row0, _, hfil, hneS⟩
      rcases List.exists_mem_of_ne_nil _ hneS with ⟨e0, he0⟩
      have he0f : elemW e0.1 (sourceKeys m2) = true := by
        rw [hfil] at he0
        exact (List.mem_filter.mp he0).2
      have hkey : e0.1 ∈ sourceKeys ((removeDeadNodes rest).getD 0 []) := by
        rw [hrec, List.getD_cons_zero]
        exact (elemW_iff _ _).mp he0f
      have hreach := ih hEnd2 e0.1 hkey
      rw [hrec] at hreach
      unfold reachesEnd at hreach ⊢
      rw [elemW_iff] at hreach
      rw [removeDeadNodes_cons_of hrec, elemW_iff, endReachers_cons]
      refine List.mem_map.mpr ⟨s, List.mem_filter.mpr ⟨hsP, ?_⟩, heqw⟩
      exact List.any_eq_true.mpr ⟨e0, he0, (elemW_iff _ _).mpr hreach⟩

theorem any_normalizeRow (row : Row) (q : Word → Bool) :
    (normalizeRow row).any (fun e => q e.1) = row.any (fun e => q e.1) := by
  unfold normalizeRow
  rw [List.any_map]
  rfl

theorem sourceKeys_filter_normMat (m : TMatrix) (q : Word → Bool) :
    sourceKeys ((normMat m).filter (fun s => s.2.any (fun e => q e.1))) =
      sourceKeys (m.filter (fun s => s.2.any (fun e => q e.1))) := by
  unfold normMat
  rw [List.filter_map]
  have h2 : (m.filter ((fun s => s.2.any fun e => q e.1) ∘ fun s => (s.1, normalizeRow s.2)))
      = m.filter (fun s => s.2.any fun e => q e.1) := by
    refine List.filter_congr ?_
    intro s _
    show (normalizeRow s.2).any (fun e => q e.1) = _
    exact any_normalizeRow s.2 q
  rw [h2]
  exact sourceKeys_normMat _

theorem any_startRow (tseqs : List (List Word)) (keys : List Word) (q : Word → Bool) :
    (startRow tseqs keys).any (fun e => q e.1) = keys.any q := by
  unfold startRow
  induction keys with
  | nil => rfl
  | cons k rest ih => simp [List.any_cons, ih]

theorem endReachers_map_norm (ms : List TMatrix) :
    endReachers (ms.map normMat) = endReachers ms := by
  induction ms with
  | nil => rfl
  | cons m rest ih =>
    rw [List.map_cons, endReachers_cons, endReachers_cons, ih]
    exact sourceKeys_filter_normMat m (fun t => elemW t (endReachers rest))

/-- C1: after `train` completes, every word that survives at any layer `i` of
the finalized matrices has a path of surviving edges through the remaining
layers that reaches the END sentinel — no surviving node dead-ends early. -/
theorem arc_consistency_reaches_end {tseqs : List (List Word)} {len : Nat}
    {ok : Nat → Word → Word → Bool} {model : CMModel}
    (htrain : train tseqs len ok = some model)
    (HL : ∀ ws ∈ tseqs, ws.length = len) :
    ∀ i w, w ∈ sourceKeys (model.matrices.getD i []) →
      reachesEnd (model.matrices.drop i) w = true := by
  rcases train_eq htrain with ⟨_, hmat, hne⟩
  have hEnd : lastEndsOnly (applyConstraints ok (buildFrequencies len tseqs)) :=
    constrained_lastEndsOnly HL
  intro i w hw
  rw [hmat] at hw ⊢
  unfold normalize addStartTransition at hw ⊢
  rw [List.map_cons] at hw ⊢
  cases i with
  | zero =>
    rw [List.getD_cons_zero, sourceKeys_normMat] at hw
    have hwS : w = START := by
      simpa [sourceKeys] using hw
    subst hwS
    rw [List.drop_zero]
    unfold reachesEnd
    rw [elemW_iff, endReachers_cons, endReachers_map_norm]
    rcases List.exists_mem_of_ne_nil _ hne with ⟨s0, hs0⟩
    have hkey0 : s0.1 ∈ sourceKeys ((trainPruned tseqs len ok).getD 0 []) :=
      List.mem_map_of_mem Prod.fst hs0
    have hreach0 : reachesEnd (trainPruned tseqs len ok) s0.1 = true :=
      rdn_head_reach _ hEnd s0.1 hkey0
    unfold reachesEnd at hreach0
    rw [elemW_iff] at hreach0
    refine List.mem_map.mpr
      ⟨(START, normalizeRow (startRow tseqs
          (sourceKeys ((trainPruned tseqs len ok).getD 0 [])))), ?_, rfl⟩
    refine List.mem_filter.mpr ⟨by simp [normMat], ?_⟩
    refine Eq.trans (any_normalizeRow _ (fun t => elemW t (endReachers (trainPruned tseqs len ok)))) ?_
    refine Eq.trans (any_startRow tseqs _ (fun t => elemW t (endReachers (trainPruned tseqs len ok)))) ?_
    exact List.any_eq_true.mpr ⟨s0.1, hkey0, (elemW_iff _ _).mpr hreach0⟩
  | succ j =>
    rw [List.getD_cons_succ, getD_map_mat normMat rfl, sourceKeys_normMat] at hw
    rw [List.drop_succ_cons]
    have hmd : (List.map normMat (trainPruned tseqs len ok)).drop j =
        List.map normMat ((trainPruned tseqs len ok).drop j) :=
      (List.map_drop normMat _ j).symm
    rw [hmd]
    unfold reachesEnd
    rw [elemW_iff, endReachers_map_norm]
    have hdrop : (trainPruned tseqs len ok).drop j =
        removeDeadNodes ((applyConstraints ok (buildFrequencies len tseqs)).drop j) :=
      removeDeadNodes_drop _ j
    rw [hdrop]
    have hkey : w ∈ sourceKeys
        ((removeDeadNodes ((applyConstraints ok (buildFrequencies len tseqs)).drop j)).getD
          0 []) := by
      rw [← hdrop, getD_drop]
      exact hw
    have hr := rdn_head_reach _ (lastEndsOnly_drop hEnd j) w hkey
    unfold reachesEnd at hr
    rw [elemW_iff] at hr
    exact hr

/-- Witness for C1 on the worked example: the word at layer 1 of the trained
model survives and reaches END through the remaining layers. -/
theorem arc_consistency_reaches_end_witness :
    (∀ ws ∈ exTseqs, ws.length = 3) ∧
      ("the") ∈ sourceKeys (exModel.matrices.getD 1 []) ∧
      reachesEnd (exModel.matrices.drop 1) ("the") = true := by
  have hlen : ∀ ws ∈ exTseqs, ws.length = 3 := by decide
  have hmem : ("the") ∈ sourceKeys (exModel.matrices.getD 1 []) := by decide
  exact ⟨hlen, hmem,
    arc_consistency_reaches_end train_exModel hlen 1 ("the") hmem⟩

theorem calcProb_eq_specProduct (ms : List TMatrix) (tokens : List Word) :
    calculateProbability ms tokens = specProduct ms tokens := by
  unfold specProduct
  induction ms generalizing tokens with
  | nil => simp [calculateProbability]
  | cons m rest ih =>
    cases tokens with
    | nil => simp [calculateProbability]
    | cons t1 ts =>
      cases ts with
      | nil => simp [calculateProbability]
      | cons t2 ts2 =>
        simp only [calculateProbability, List.tail_cons, List.zip_cons_cons, List.map_cons,
          List.prod_cons]
        rw [ih]
        simp

theorem calcProb_zero (ms : List TMatrix) (tokens : List Word) (i : Nat)
    (hms : i < ms.length) (htk : i + 1 < tokens.length)
    (h : lookupWeight (ms.getD i []) (tokens.getD i END) (tokens.getD (i + 1) END) = 0) :
    calculateProbability ms tokens = 0 := by
  induction ms generalizing tokens i with
  | nil => simp at hms
  | cons m rest ih =>
    cases tokens with
    | nil => simp at htk
    | cons t1 ts =>
      cases ts with
      | nil => simp at htk
      | cons t2 ts2 =>
        cases i with
        | zero =>
          simp only [List.getD_cons_zero, List.getD_cons_succ] at h
          show lookupWeight m t1 t2 * _ = 0
          rw [h]
          exact zero_mul _
        | succ j =>
          show lookupWeight m t1 t2 * _ = 0
          have hz : calculateProbability rest (t2 :: ts2) = 0 := by
            refine ih (t2 :: ts2) j ?_ ?_ ?_
            · simpa using hms
            · simpa using htk
            · simpa using h
          rw [hz]
          exact mul_zero _

/-- C4: the scorer is total on every model: it returns the product over the
layers of the matrix entries around the implicit START/END-wrapped sequence,
and if any required transition is absent (weight 0) the result is exactly 0. -/
theorem scorer_total (m : CMModel) (s : List Word) :
    getSentenceProbability m s = specProduct m.matrices (START :: (s ++ [END])) ∧
      (∀ i, i < m.matrices.length → i + 1 < (START :: (s ++ [END])).length →
        lookupWeight (m.matrices.getD i []) ((START :: (s ++ [END])).getD i END)
          ((START :: (s ++ [END])).getD (i + 1) END) = 0 →
        getSentenceProbability m s = 0) := by
  constructor
  · exact calcProb_eq_specProduct _ _
  · intro i h1 h2 h3
    exact calcProb_zero _ _ i h1 h2 h3

/-- Witness for C4: on a concrete model, the sequence `["b"]` requires the
absent transition START → "b", and the scorer returns exactly 0. -/
theorem scorer_total_witness :
    (0 < exScoreModel.matrices.length ∧
      0 + 1 < (START :: ((["b"] : List Word) ++ [END])).length ∧
      lookupWeight (exScoreModel.matrices.getD 0 [])
        ((START :: ((["b"] : List Word) ++ [END])).getD 0 END)
        ((START :: ((["b"] : List Word) ++ [END])).getD 1 END) = 0) ∧
      getSentenceProbability exScoreModel (["b"] : List Word) = 0 := by
  have h1 : 0 < exScoreModel.matrices.length := by decide
  have h2 : 0 + 1 < (START :: ((["b"] : List Word) ++ [END])).length := by decide
  have h3 : lookupWeight (exScoreModel.matrices.getD 0 [])
      ((START :: ((["b"] : List Word) ++ [END])).getD 0 END)
      ((START :: ((["b"] : List Word) ++ [END])).getD 1 END) = 0 := by decide
  exact ⟨⟨h1, h2, h3⟩, (scorer_total exScoreModel (["b"] : List Word)).2 0 h1 h2 h3⟩

theorem generateFrom_congr (ms : List TMatrix) (fuel : Nat) :
    ∀ i w (g1 g2 : RandGen), (∀ k, g1.stream (g1.pos + k) = g2.stream (g2.pos + k)) →
    (generateFrom ms fuel i w g1).1 = (generateFrom ms fuel i w g2).1 := by
  induction fuel with
  | zero =>
    intro i w g1 g2 _
    rfl
  | succ n ih =>
    intro i w g1 g2 h
    have h0 : g1.stream g1.pos = g2.stream g2.pos := by
      have := h 0
      simpa using this
    by_cases hw : w = END
    · simp [generateFrom, hw]
    · simp only [generateFrom, if_neg hw, h0]
      cases hrow : getRow (ms.getD i []) w with
      | none => rfl
      | some row =>
        dsimp only
        cases hnext : getNextWord row (g2.stream g2.pos) with
        | none => rfl
        | some w2 =>
          dsimp only
          have hrec := ih (i + 1) w2 ⟨g1.stream, g1.pos + 1⟩ ⟨g2.stream, g2.pos + 1⟩ ?_
          · rw [hrec]
          · intro k
            have := h (k + 1)
            have e1 : g1.pos + (k + 1) = g1.pos + 1 + k := by omega
            have e2 : g2.pos + (k + 1) = g2.pos + 1 + k := by omega
            rw [e1, e2] at this
            exact this

/-- C6: sampling is deterministic — the generated sentence depends only on the
model and the generator state (the rows are walked in their fixed list order):
two calls whose generators agree on the stream from their positions produce
identical output, so two calls with the generator reset in between coincide. -/
theorem generateSentence_deterministic (m : CMModel) (g1 g2 : RandGen)
    (h : ∀ k, g1.stream (g1.pos + k) = g2.stream (g2.pos + k)) :
    (generateSentence m g1).1 = (generateSentence m g2).1 :=
  generateFrom_congr m.matrices m.sentenceLength 0 START g1 g2 h

/-- Witness for C6: two runs from the same reset generator state coincide. -/
theorem generateSentence_deterministic_witness :
    (∀ k, (fun _ : Nat => (0 : ℚ)) (0 + k) = (fun _ : Nat => (0 : ℚ)) (0 + k)) ∧
      (generateSentence exScoreModel ⟨fun _ => 0, 0⟩).1 =
        (generateSentence exScoreModel ⟨fun _ => 0, 0⟩).1 :=
  ⟨fun _ => rfl,
    generateSentence_deterministic exScoreModel ⟨fun _ => 0, 0⟩ ⟨fun _ => 0, 0⟩ fun _ => rfl⟩

theorem normalizeRow_pos {row : Row} (hpos : ∀ e ∈ row, 0 < e.2) (hne : row ≠ []) :
    ∀ e ∈ normalizeRow row, 0 < e.2 := by
  intro e he
  unfold normalizeRow at he
  rcases List.mem_map.mp he with ⟨e0, he0, heq⟩
  rw [← heq]
  exact div_pos (hpos e0 he0) (rowSum_pos row hne hpos)

theorem calcProb_single (X : List TMatrix) (t : Word) :
    calculateProbability X [t] = 1 := by
  cases X <;> rfl

theorem calcProb_drop_cons (X : List TMatrix) (i : Nat) (t1 t2 : Word) (ts : List Word)
    (h : i < X.length) :
    calculateProbability (X.drop i) (t1 :: t2 :: ts) =
      lookupWeight (X.getD i []) t1 t2 * calculateProbability (X.drop (i + 1)) (t2 :: ts) := by
  rw [List.drop_eq_getElem_cons h, List.getD_eq_getElem _ _ h]
  rfl

theorem keys_startRow (tseqs : List (List Word)) (keys : List Word) :
    (startRow tseqs keys).map Prod.fst = keys := by
  unfold startRow
  rw [List.map_map]
  exact List.map_id keys

theorem final_getD_succ {tseqs : List (List Word)} {len : Nat}
    {ok : Nat → Word → Word → Bool} {model : CMModel}
    (hmat : model.matrices = normalize (addStartTransition tseqs (trainPruned tseqs len ok)))
    (j : Nat) :
    model.matrices.getD (j + 1) [] = normMat ((trainPruned tseqs len ok).getD j []) := by
  rw [hmat]
  unfold normalize addStartTransition
  rw [List.map_cons, List.getD_cons_succ, getD_map_mat normMat rfl]

theorem final_length {tseqs : List (List Word)} {len : Nat}
    {ok : Nat → Word → Word → Bool} {model : CMModel}
    (hmat : model.matrices = normalize (addStartTransition tseqs (trainPruned tseqs len ok))) :
    model.matrices.length = len + 1 := by
  rw [hmat]
  unfold normalize addStartTransition
  rw [List.length_map, List.length_cons, trainPruned_length]

theorem genAux {tseqs : List (List Word)} {len : Nat} {ok : Nat → Word → Word → Bool}
    {model : CMModel} (htrain : train tseqs len ok = some model)
    (HL : ∀ ws ∈ tseqs, ws.length = len)
    (HS : ∀ ws ∈ tseqs, ∀ u ∈ ws, u ≠ START ∧ u ≠ END)
    {f : Nat → ℚ} (HR : ∀ k, 0 ≤ f k ∧ f k < 1) :
    ∀ fuel j w pos, fuel + (j + 1) = len →
      w ∈ sourceKeys ((trainPruned tseqs len ok).getD j []) →
      ∃ ws, (generateFrom model.matrices fuel (j + 1) w ⟨f, pos⟩).1 = some ws ∧
        ws.length = fuel ∧ (∀ u ∈ ws, u ≠ START ∧ u ≠ END) ∧
        pairsOk ok j (w :: (ws ++ [END])) = true ∧
        0 < calculateProbability (model.matrices.drop (j + 1)) (w :: (ws ++ [END])) := by
  rcases train_eq htrain with ⟨_, hmat, _⟩
  intro fuel
  induction fuel with
  | zero =>
    intro j w pos hlen hw
    have hlenM : j + 1 < model.matrices.length := by
      rw [final_length hmat]
      omega
    refine ⟨[], rfl, rfl, by simp, ?_, ?_⟩
    · rcases List.mem_map.mp hw with ⟨s, hs, heq⟩
      have hrow := rdn_nonempty hs
      rcases List.exists_mem_of_ne_nil _ hrow with ⟨e0, he0⟩
      have hEnd : e0.1 = END := trainPruned_lastEnd HL (by omega) s hs e0 he0
      have hok := trainPruned_ok hs he0
      rw [heq, hEnd] at hok
      show (ok j w END && pairsOk ok (j + 1) [END]) = true
      rw [hok]
      simp [pairsOk]
    · rcases getRow_of_key hw with ⟨row, hgr, hmem⟩
      have hrowne : row ≠ [] := rdn_nonempty hmem
      have hker : END ∈ row.map Prod.fst := by
        rcases List.exists_mem_of_ne_nil _ hrowne with ⟨e0, he0⟩
        have hEnd : e0.1 = END := trainPruned_lastEnd HL (by omega) _ hmem e0 he0
        rw [← hEnd]
        exact List.mem_map_of_mem Prod.fst he0
      show 0 < calculateProbability (model.matrices.drop (j + 1)) (w :: END :: [])
      rw [calcProb_drop_cons _ _ _ _ _ hlenM, calcProb_single, mul_one,
        final_getD_succ hmat]
      have hgrN : getRow (normMat ((trainPruned tseqs len ok).getD j [])) w =
          some (normalizeRow row) := by
        rw [getRow_normMat, hgr]
        rfl
      refine lookupWeight_pos hgrN ?_ ?_
      · rw [keys_normalizeRow]
        exact hker
      · exact normalizeRow_pos (fun e he => trainPruned_pos tseqs len ok j _ hmem e he) hrowne
  | succ n ih =>
    intro j w pos hlen hw
    have hlenM : j + 1 < model.matrices.length := by
      rw [final_length hmat]
      omega
    rcases getRow_of_key hw with ⟨row, hgr, hmem⟩
    have hrowne : row ≠ [] := rdn_nonempty hmem
    have hrowpos : ∀ e ∈ row, 0 < e.2 :=
      fun e he => trainPruned_pos tseqs len ok j _ hmem e he
    have hwne : w ≠ END := (trainPruned_nonsentinel HS hw).2
    have hsum1 : rowSum (normalizeRow row) = 1 := (normalizeRow_good hrowne hrowpos).2
    rcases @getNextWord_mem (normalizeRow row) (f pos) (HR pos).1
        (by rw [hsum1]; exact (HR pos).2) with ⟨w2, hnext, hw2keys⟩
    rw [keys_normalizeRow] at hw2keys
    rcases List.mem_map.mp hw2keys with ⟨e2, he2, heq2⟩
    have hw2src : w2 ∈ sourceKeys ((trainPruned tseqs len ok).getD (j + 1) []) := by
      rw [← heq2]
      exact trainPruned_chain hmem he2 (by omega)
    rcases ih (j + 1) w2 (pos + 1) (by omega) hw2src with
      ⟨ws2, hgen2, hlen2, hns2, hpok2, hprob2⟩
    have hgrN : getRow (normMat ((trainPruned tseqs len ok).getD j [])) w =
        some (normalizeRow row) := by
      rw [getRow_normMat, hgr]
      rfl
    refine ⟨w2 :: ws2, ?_, ?_, ?_, ?_, ?_⟩
    · show (generateFrom model.matrices (n + 1) (j + 1) w ⟨f, pos⟩).1 = _
      simp only [generateFrom, if_neg hwne, final_getD_succ hmat, hgrN]
      rw [hnext]
      dsimp only
      rw [hgen2]
      rfl
    · simp [hlen2]
    · intro u hu
      rcases List.mem_cons.mp hu with h1 | h1
      · rw [h1]
        exact trainPruned_nonsentinel HS hw2src
      · exact hns2 u h1
    · have hok : ok j w w2 = true := by
        have := trainPruned_ok hmem he2
        rw [heq2] at this
        exact this
      show (ok j w w2 && pairsOk ok (j + 1) (w2 :: (ws2 ++ [END]))) = true
      rw [hok, hpok2]
      rfl
    · show 0 < calculateProbability (model.matrices.drop (j + 1)) (w :: w2 :: (ws2 ++ [END]))
      rw [calcProb_drop_cons _ _ _ _ _ hlenM]
      refine mul_pos ?_ hprob2
      rw [final_getD_succ hmat]
      refine lookupWeight_pos hgrN ?_ ?_
      · rw [keys_normalizeRow]
        exact hw2keys
      · exact normalizeRow_pos hrowpos hrowne

theorem generated_full {tseqs : List (List Word)} {len : Nat}
    {ok : Nat → Word → Word → Bool} {model : CMModel}
    (htrain : train tseqs len ok = some model)
    (HL : ∀ ws ∈ tseqs, ws.length = len)
    (HS : ∀ ws ∈ tseqs, ∀ u ∈ ws, u ≠ START ∧ u ≠ END)
    (g : RandGen) (HR : ∀ k, 0 ≤ g.stream k ∧ g.stream k < 1) :
    ∃ ws, (generateSentence model g).1 = some ws ∧
      ws.length = model.sentenceLength ∧
      (∀ u ∈ ws, u ≠ START ∧ u ≠ END) ∧
      satisfiesConstraint ok ws = true ∧
      0 < getSentenceProbability model ws := by
  rcases train_eq htrain with ⟨hsl, hmat, hne⟩
  have hlen1 : 0 < len := by
    by_contra hx
    have h0 : len = 0 := by omega
    subst h0
    have hl0 : (trainPruned tseqs 0 ok).length = 0 := trainPruned_length tseqs 0 ok
    have hnil : trainPruned tseqs 0 ok = [] := List.length_eq_zero.mp hl0
    rw [hnil] at hne
    simp at hne
  obtain ⟨n, hn⟩ : ∃ n, len = n + 1 := ⟨len - 1, by omega⟩
  have hgd0 : model.matrices.getD 0 [] =
      normMat [(START,
        startRow tseqs (sourceKeys ((trainPruned tseqs len ok).getD 0 [])))] := by
    rw [hmat]
    unfold normalize addStartTransition
    rw [List.map_cons, List.getD_cons_zero]
  have hSne : startRow tseqs (sourceKeys ((trainPruned tseqs len ok).getD 0 [])) ≠ [] :=
    startRow_ne_nil tseqs len ok hne
  have hSpos := startRow_pos tseqs len ok
  have hSsum : rowSum (normalizeRow
      (startRow tseqs (sourceKeys ((trainPruned tseqs len ok).getD 0 [])))) = 1 :=
    (normalizeRow_good hSne hSpos).2
  have hgrS : getRow (model.matrices.getD 0 []) START =
      some (normalizeRow
        (startRow tseqs (sourceKeys ((trainPruned tseqs len ok).getD 0 [])))) := by
    rw [hgd0]
    simp [normMat, getRow]
  rcases @getNextWord_mem
      (normalizeRow (startRow tseqs (sourceKeys ((trainPruned tseqs len ok).getD 0 []))))
      (g.stream g.pos) (HR g.pos).1 (by rw [hSsum]; exact (HR g.pos).2) with
    ⟨w0, hnext0, hw0keys⟩
  have hw0src : w0 ∈ sourceKeys ((trainPruned tseqs len ok).getD 0 []) := by
    rw [keys_normalizeRow, keys_startRow] at hw0keys
    exact hw0keys
  rcases genAux htrain HL HS HR n 0 w0 (g.pos + 1) (by omega) hw0src with
    ⟨ws1, hgen1, hlen1b, hns1, hpok1, hprob1⟩
  have hlenM0 : 0 < model.matrices.length := by
    rw [final_length hmat]
    omega
  refine ⟨w0 :: ws1, ?_, ?_, ?_, ?_, ?_⟩
  · show (generateFrom model.matrices model.sentenceLength 0 START g).1 = _
    rw [hsl, hn]
    simp only [generateFrom, if_neg START_ne_END, hgrS]
    rw [show g.stream g.pos = RandGen.stream ⟨g.stream, g.pos⟩ (RandGen.pos ⟨g.stream, g.pos⟩)
      from rfl] at hnext0
    rw [hnext0]
    dsimp only
    rw [hgen1]
    rfl
  · rw [hsl, hn]
    simp [hlen1b]
  · intro u hu
    rcases List.mem_cons.mp hu with h1 | h1
    · rw [h1]
      exact trainPruned_nonsentinel HS hw0src
    · exact hns1 u h1
  · show pairsOk ok 0 ((w0 :: ws1) ++ [END]) = true
    rw [List.cons_append]
    exact hpok1
  · show 0 < calculateProbability model.matrices (START :: ((w0 :: ws1) ++ [END]))
    rw [List.cons_append, ← List.drop_zero model.matrices,
      calcProb_drop_cons _ _ _ _ _ hlenM0]
    refine mul_pos ?_ ?_
    · refine lookupWeight_pos hgrS ?_ ?_
      · rw [keys_normalizeRow, keys_startRow]
        exact hw0src
      · exact normalizeRow_pos hSpos hSne
    · exact hprob1

/-- C3: every sequence returned by `generateSentence` on a successfully
trained model has length exactly `sentenceLength`, contains neither sentinel,
and satisfies the constraint the model was trained with. -/
theorem generated_sentence_ok {tseqs : List (List Word)} {len : Nat}
    {ok : Nat → Word → Word → Bool} {model : CMModel}
    (htrain : train tseqs len ok = some model)
    (HL : ∀ ws ∈ tseqs, ws.length = len)
    (HS : ∀ ws ∈ tseqs, ∀ u ∈ ws, u ≠ START ∧ u ≠ END)
    (g : RandGen) (HR : ∀ k, 0 ≤ g.stream k ∧ g.stream k < 1)
    (ws : List Word) (hws : (generateSentence model g).1 = some ws) :
    ws.length = model.sentenceLength ∧ (∀ u ∈ ws, u ≠ START ∧ u ≠ END) ∧
      satisfiesConstraint ok ws = true := by
  rcases generated_full htrain HL HS g HR with ⟨ws2, h1, h2, h3, h4, _⟩
  rw [hws] at h1
  have heq := Option.some.inj h1
  subst heq
  exact ⟨h2, h3, h4⟩

/-- C7: every sequence produced by `generateSentence` on a trained model has
strictly positive probability under `getSentenceProbability`. -/
theorem generated_sentence_prob_pos {tseqs : List (List Word)} {len : Nat}
    {ok : Nat → Word → Word → Bool} {model : CMModel}
    (htrain : train tseqs len ok = some model)
    (HL : ∀ ws ∈ tseqs, ws.length = len)
    (HS : ∀ ws ∈ tseqs, ∀ u ∈ ws, u ≠ START ∧ u ≠ END)
    (g : RandGen) (HR : ∀ k, 0 ≤ g.stream k ∧ g.stream k < 1)
    (ws : List Word) (hws : (generateSentence model g).1 = some ws) :
    0 < getSentenceProbability model ws := by
  rcases generated_full htrain HL HS g HR with ⟨ws2, h1, _, _, _, h5⟩
  rw [hws] at h1
  have heq := Option.some.inj h1
  subst heq
  exact h5

theorem exRaw_eq : buildFrequencies 3 exTseqs =
    [[("the", [("cat", 1), ("dog", 1)])],
     [("cat", [("sat", 1)]), ("dog", [("sat", 1)])],
     [("sat", [(END, 2)])]] := by
  norm_num [buildFrequencies, exTseqs, addSequence, increment, incrementRow]
  all_goals decide

theorem exConstr_eq : applyConstraints exOk
    [[("the", [("cat", 1), ("dog", 1)])],
     [("cat", [("sat", 1)]), ("dog", [("sat", 1)])],
     [("sat", [(END, 2)])]] =
    [[("the", [("cat", 1), ("dog", 1)])],
     [("cat", [("sat", 1)]), ("dog", [("sat", 1)])],
     [("sat", [(END, 2)])]] := by
  norm_num [applyConstraints, applyConstraintsFrom, constrainMat, exOk]

theorem exPrune_eq : removeDeadNodes
    [[("the", [("cat", 1), ("dog", 1)])],
     [("cat", [("sat", 1)]), ("dog", [("sat", 1)])],
     [("sat", [(END, 2)])]] =
    [[("the", [("cat", 1), ("dog", 1)])],
     [("cat", [("sat", 1)]), ("dog", [("sat", 1)])],
     [("sat", [(END, 2)])]] := by
  norm_num [removeDeadNodes, pruneMat, sourceKeys, elemW, rowNonempty]

theorem exPruned_eq : trainPruned exTseqs 3 exOk =
    [[("the", [("cat", 1), ("dog", 1)])],
     [("cat", [("sat", 1)]), ("dog", [("sat", 1)])],
     [("sat", [(END, 2)])]] := by
  unfold trainPruned
  rw [exRaw_eq, exConstr_eq, exPrune_eq]

theorem exStart_eq : addStartTransition exTseqs
    [[("the", [("cat", 1), ("dog", 1)])],
     [("cat", [("sat", 1)]), ("dog", [("sat", 1)])],
     [("sat", [(END, 2)])]] =
    [(START, [("the", 2)])] ::
    [[("the", [("cat", 1), ("dog", 1)])],
     [("cat", [("sat", 1)]), ("dog", [("sat", 1)])],
     [("sat", [(END, 2)])]] := by
  norm_num [addStartTransition, startRow, sourceKeys, wordFrequencies, exTseqs,
    List.count, List.countP, List.countP.go, Bool.cond_eq_if, beq_iff_eq,
    String.reduceEq]
  simp only [String.reduceEq]
  norm_num

theorem exNorm_eq : CMM.normalize
    ([(START, [("the", 2)])] ::
     [[("the", [("cat", 1), ("dog", 1)])],
      [("cat", [("sat", 1)]), ("dog", [("sat", 1)])],
      [("sat", [(END, 2)])]]) =
    [[(START, [("the", 1)])],
     [("the", [("cat", 1/2), ("dog", 1/2)])],
     [("cat", [("sat", 1)]), ("dog", [("sat", 1)])],
     [("sat", [(END, 1)])]] := by
  norm_num [CMM.normalize, normMat, normalizeRow, rowSum]

theorem exTrain_eq : train exTseqs 3 exOk =
    some ⟨3, [[(START, [("the", 1)])],
              [("the", [("cat", 1/2), ("dog", 1/2)])],
              [("cat", [("sat", 1)]), ("dog", [("sat", 1)])],
              [("sat", [(END, 1)])]]⟩ := by
  rw [show train exTseqs 3 exOk =
      (if (trainPruned exTseqs 3 exOk).getD 0 [] = [] then none
       else some ⟨3, CMM.normalize (addStartTransition exTseqs (trainPruned exTseqs 3 exOk))⟩)
      from rfl, exPruned_eq]
  rw [if_neg (by decide)]
  rw [exStart_eq, exNorm_eq]

theorem exModel_eq : exModel =
    ⟨3, [[(START, [("the", 1)])],
         [("the", [("cat", 1/2), ("dog", 1/2)])],
         [("cat", [("sat", 1)]), ("dog", [("sat", 1)])],
         [("sat", [(END, 1)])]]⟩ := by
  have h := train_exModel
  rw [exTrain_eq] at h
  exact (Option.some.inj h).symm

theorem exGen_eq : (generateSentence exModel ⟨fun _ => 0, 0⟩).1 =
    some ["the", "cat", "sat"] := by
  unfold generateSentence
  rw [exModel_eq]
  norm_num [generateFrom, getRow, getNextWord, getNextWordGo, START, END, String.reduceEq]
  simp only [String.reduceEq]
  norm_num

/-- Witness for C3 on the worked example: the sampler returns
`["the", "cat", "sat"]`, of length 3, without sentinels, satisfying the
constraint. -/
theorem generated_sentence_ok_witness :
    (train exTseqs 3 exOk = some exModel ∧ (∀ ws ∈ exTseqs, ws.length = 3) ∧
      (∀ ws ∈ exTseqs, ∀ u ∈ ws, u ≠ START ∧ u ≠ END) ∧
      (∀ k, 0 ≤ (fun _ : Nat => (0 : ℚ)) k ∧ (fun _ : Nat => (0 : ℚ)) k < 1) ∧
      (generateSentence exModel ⟨fun _ => 0, 0⟩).1 = some ["the", "cat", "sat"]) ∧
      (["the", "cat", "sat"] : List Word).length = exModel.sentenceLength ∧
      (∀ u ∈ (["the", "cat", "sat"] : List Word), u ≠ START ∧ u ≠ END) ∧
      satisfiesConstraint exOk ["the", "cat", "sat"] = true := by
  have hL : ∀ ws ∈ exTseqs, ws.length = 3 := by decide
  have hS : ∀ ws ∈ exTseqs, ∀ u ∈ ws, u ≠ START ∧ u ≠ END := by decide
  have hR : ∀ k, 0 ≤ (fun _ : Nat => (0 : ℚ)) k ∧ (fun _ : Nat => (0 : ℚ)) k < 1 :=
    fun _ => ⟨le_refl 0, by norm_num⟩
  exact ⟨⟨train_exModel, hL, hS, hR, exGen_eq⟩,
    generated_sentence_ok train_exModel hL hS ⟨fun _ => 0, 0⟩ hR _ exGen_eq⟩

/-- Witness for C7 on the worked example: the produced sentence has strictly
positive probability. -/
theorem generated_sentence_prob_pos_witness :
    (train exTseqs 3 exOk = some exModel ∧
      (generateSentence exModel ⟨fun _ => 0, 0⟩).1 = some ["the", "cat", "sat"]) ∧
      0 < getSentenceProbability exModel ["the", "cat", "sat"] := by
  have hL : ∀ ws ∈ exTseqs, ws.length = 3 := by decide
  have hS : ∀ ws ∈ exTseqs, ∀ u ∈ ws, u ≠ START ∧ u ≠ END := by decide
  have hR : ∀ k, 0 ≤ (fun _ : Nat => (0 : ℚ)) k ∧ (fun _ : Nat => (0 : ℚ)) k < 1 :=
    fun _ => ⟨le_refl 0, by norm_num⟩
  exact ⟨⟨train_exModel, exGen_eq⟩,
    generated_sentence_prob_pos train_exModel hL hS ⟨fun _ => 0, 0⟩ hR _ exGen_eq⟩

/-- C10: the sentinels are exactly the literal strings of
`constrainedmarkov.h` and are recognized purely by string equality, so the
literal `"<<END>>"` occurring as ordinary vocabulary is indistinguishable from
the sentinel: the sampler's walk terminates on it exactly as on END. -/
theorem sentinels_are_literals :
    START = "<<START>>" ∧ END = "<<END>>" ∧
      ∀ (ms : List TMatrix) (fuel i : Nat) (g : RandGen),
        generateFrom ms (fuel + 1) i ("<<END>>") g = (some [], g) := by
  refine ⟨rfl, rfl, ?_⟩
  intro ms fuel i g
  have h : ("<<END>>" : Word) = END := rfl
  simp [generateFrom, h]

/-- Witness for C2 at the worked example: training succeeds and every
finalized row is nonempty with weights summing to 1. -/
theorem trained_rows_sum_one_witness :
    train exTseqs 3 exOk = some exModel ∧
      ∀ m ∈ exModel.matrices, ∀ s ∈ m, s.2 ≠ [] ∧ rowSum s.2 = 1 :=
  ⟨train_exModel, trained_rows_sum_one train_exModel⟩

end CMM
